import Mathlib

/-!
Shallow embedding of the GMM (graph motif model) engine: the `gmm` class
(`gmm.py`) and the simulation algorithms (`algorithms.py`).

Graphs are finite NetworkX-style graphs: a directedness flag, a node list
(always a dense integer range for the graphs the engine builds), and an edge
list.  For an undirected graph each edge is stored once as an ordered pair
`(u, v)`; adjacency treats it symmetrically.  For a directed graph the edge
list is the arc list.  Edge lists produced by the embedded constructors are in
NetworkX reporting order (lexicographic by source then target, matching the
adjacency-dict iteration order of small integer keys), which is what the
catalog-deduplication step of `all_graphs` compares.
-/

structure Graph where
  directed : Bool
  nodes : List ℕ
  edges : List (ℕ × ℕ)
deriving DecidableEq

namespace Graph

/-- `G.number_of_edges()`. -/
def number_of_edges (g : Graph) : ℕ := g.edges.length

/-- `G.is_directed()`. -/
def is_directed (g : Graph) : Bool := g.directed

/-- Adjacency test: for a directed graph, arc membership; for an undirected
graph, membership in either orientation. -/
def hasEdge (g : Graph) (u v : ℕ) : Bool :=
  g.edges.contains (u, v) || (!g.directed && g.edges.contains (v, u))

/-- Symmetrized adjacency, used for connected / weakly connected components. -/
def adjSym (g : Graph) (u v : ℕ) : Bool :=
  g.edges.contains (u, v) || g.edges.contains (v, u)

/-- Nodes reachable from `v` along symmetrized edges: iterate one-step
expansion `|nodes|` times starting from `[v]`. -/
def reachFrom (g : Graph) (v : ℕ) : List ℕ :=
  (fun s => g.nodes.filter (fun w => s.contains w || s.any (fun u => g.adjSym u w)))^[g.nodes.length] [v]

/-- Number of connected components of the symmetrized graph: count the nodes
that are minimal in their component. -/
def numberComponents (g : Graph) : ℕ :=
  (g.nodes.filter
    (fun v => !(g.nodes.any (fun u => decide (u < v) && (g.reachFrom u).contains v)))).length

/-- `nx.number_connected_components` (undirected graphs). -/
def number_connected_components (g : Graph) : ℕ := numberComponents g

/-- `nx.number_weakly_connected_components` (directed graphs). -/
def number_weakly_connected_components (g : Graph) : ℕ := numberComponents g

/-- `G.to_directed()`: returns a new directed graph with both orientations of
every undirected edge, arcs in NetworkX reporting order.  Does not modify the
receiver (NetworkX returns a fresh graph). -/
def to_directed (g : Graph) : Graph :=
  if g.directed then g
  else
    { directed := true, nodes := g.nodes,
      edges := g.nodes.flatMap (fun u => g.nodes.filterMap
        (fun v => if g.hasEdge u v then some (u, v) else none)) }

/-- `G.to_undirected()`: returns a new undirected graph with one copy of each
connected pair.  Does not modify the receiver. -/
def to_undirected (g : Graph) : Graph :=
  if g.directed then
    { directed := false, nodes := g.nodes,
      edges := g.nodes.flatMap (fun u => g.nodes.filterMap
        (fun v => if decide (u < v) && (g.edges.contains (u, v) || g.edges.contains (v, u))
                  then some (u, v) else none)) }
  else g

end Graph

/-- `nx.complete_graph(n)`: undirected, nodes `0..n-1`, edges `(i,j)` with
`i < j` in NetworkX reporting order. -/
def complete_graph (n : ℕ) : Graph :=
  { directed := false, nodes := List.range n,
    edges := (List.range n).flatMap (fun i => (List.range n).filterMap
      (fun j => if i < j then some (i, j) else none)) }

/-- `nx.cycle_graph(5)`-style cycle on `n` nodes. -/
def cycle_graph (n : ℕ) : Graph :=
  { directed := false, nodes := List.range n,
    edges := (List.range n).map (fun i => (i, (i + 1) % n)) }

/-- Lexicographic order on edge pairs, the order Python's `list.sort()` gives
on 2-tuples of integers. -/
def pairLe (a b : ℕ × ℕ) : Bool :=
  decide (a.1 < b.1) || (decide (a.1 = b.1) && decide (a.2 ≤ b.2))

def insertPairSorted (x : ℕ × ℕ) : List (ℕ × ℕ) → List (ℕ × ℕ)
  | [] => [x]
  | y :: t => if pairLe x y then x :: y :: t else y :: insertPairSorted x t

/-- Python's `edge_list.sort()`. -/
def sortPairs (l : List (ℕ × ℕ)) : List (ℕ × ℕ) := l.foldr insertPairSorted []

/-- The edge-removal sweep inside `all_graphs`: the `while` loop pops edges of
the complete graph from the end of its edge list, removes each from the
current graph, and records a copy whenever the remainder is still a single
(weakly) connected component. -/
def removalSweep (nodes : List ℕ) (directed : Bool) :
    List (ℕ × ℕ) → List (ℕ × ℕ) → List Graph
  | [], _ => []
  | e :: pops, current =>
    let current' := current.erase e
    let g' : Graph := ⟨directed, nodes, current'⟩
    let keep :=
      if directed then g'.number_weakly_connected_components = 1
      else g'.number_connected_components = 1
    (if keep then [g'] else []) ++ removalSweep nodes directed pops current'

/-- `all_graphs(num_nodes, False)`: sweep the undirected complete graph, then
append the untouched complete graph. -/
def all_graphs_undirected (num_nodes : ℕ) : List Graph :=
  let complete := complete_graph num_nodes
  removalSweep complete.nodes false complete.edges.reverse complete.edges ++ [complete]

/-- `all_graphs(num_nodes, directed_motifs)` from `algorithms.py`.  In the
directed case: sweep the complete digraph under weak connectivity, append the
complete digraph, then append the directed doubling of every undirected motif
whose (sorted) undirected edge list does not already occur among the directed
edge lists.  (The source sorts the outer `graphs_edges` list before the
membership test, which does not affect membership.) -/
def all_graphs (num_nodes : ℕ) (directed_motifs : Bool) : List Graph :=
  if directed_motifs then
    let complete := (complete_graph num_nodes).to_directed
    let swept := removalSweep complete.nodes true complete.edges.reverse complete.edges
    let graphs := swept ++ [complete]
    let graphs_edges := graphs.map (·.edges)
    graphs ++
      ((all_graphs_undirected num_nodes).filter
        (fun i => !(graphs_edges.contains (sortPairs i.edges)))).map Graph.to_directed
  else all_graphs_undirected num_nodes

/-- `get_motifs(tau, directed_motifs)`: all motifs of orders `2..tau`, indexed
in discovery order, with a `0` count placeholder. -/
def get_motifs (tau : ℕ) (directed_motifs : Bool) : List (ℕ × Graph × ℕ) :=
  ((List.range' 2 (tau - 1)).flatMap (fun v => all_graphs v directed_motifs)).enum.map
    (fun p => (p.1, p.2, 0))

/-- All injective assignments (as association lists) of the nodes of `dom` to
distinct nodes of `cod`. -/
def injectionMaps : List ℕ → List ℕ → List (List (ℕ × ℕ))
  | [], _ => [[]]
  | d :: ds, cod =>
    cod.flatMap (fun c => (injectionMaps ds (cod.erase c)).map (fun f => (d, c) :: f))

/-- Does the injection `f` exhibit the motif as a node-induced subgraph of the
base (VF2's subgraph-isomorphism relation: edge iff edge over all node
pairs)? -/
def isoCheck (base motif : Graph) (f : List (ℕ × ℕ)) : Bool :=
  motif.nodes.all (fun u => motif.nodes.all (fun v =>
    motif.hasEdge u v == base.hasEdge ((f.lookup u).getD 0) ((f.lookup v).getD 0)))

/-- Number of subgraph isomorphisms found by
`nx.GraphMatcher(base, motif).subgraph_isomorphisms_iter()` /
`nx.DiGraphMatcher`: injections of the motif's nodes into the base realizing
the motif as a node-induced substructure. -/
def countSubIso (base motif : Graph) : ℕ :=
  ((injectionMaps motif.nodes base.nodes).filter (fun f => isoCheck base motif f)).length

/-- The probe graph stored as `self.test_graph` in `gmm.__init__`:
`nx.Graph(data=[(0,1),(1,2)])`. -/
def gmm_test_graph : Graph := ⟨false, [0, 1, 2], [(0, 1), (1, 2)]⟩

/-- `nx.convert_node_labels_to_integers`: relabel the nodes, in node-list
order, to `0..n-1`. -/
def convert_node_labels_to_integers (g : Graph) : Graph :=
  ⟨g.directed, List.range g.nodes.length,
   g.edges.map (fun e => (g.nodes.indexOf e.1, g.nodes.indexOf e.2))⟩

/-- The `gmm` class of `gmm.py`.  The termination and growth rules are stored
as typed functions (the source validates duck-typed callables by a trial
invocation; in the typed embedding the trial always succeeds). -/
structure Gmm where
  base : Graph
  original : Graph
  termination : Option (Graph → Bool)
  rule : Option (Graph → Graph → Graph)
  test_graph : Graph

/-- `gmm.__init__(G, T, R)`: reject a base with fewer than two edges,
otherwise relabel it and store it as both `base` and `original`. -/
def gmm_init (G : Graph) (T : Option (Graph → Bool))
    (R : Option (Graph → Graph → Graph)) : Except String Gmm :=
  if G.number_of_edges > 1 then
    let G2 := convert_node_labels_to_integers G
    .ok { base := G2, original := G2, termination := T, rule := R,
          test_graph := gmm_test_graph }
  else .error "ValueError: Base graph must have at least two edges"

namespace Gmm

/-- `get_base(original)`. -/
def get_base (m : Gmm) (original : Bool) : Graph :=
  if original then m.original else m.base

/-- `set_base(G)`: with more than one edge, relabel and replace `base`.  With
one edge or fewer the source merely constructs
`ValueError("Base graph must have at least two edges")` without raising it, so
the method returns normally and the model is unchanged. -/
def set_base (m : Gmm) (G : Graph) : Except String Gmm :=
  if G.number_of_edges > 1 then
    .ok { m with base := convert_node_labels_to_integers G }
  else
    .ok m

/-- `revert_base()`. -/
def revert_base (m : Gmm) : Gmm := { m with base := m.original }

/-- `set_termination(T)`: trial-invoke `T(base)` and store the predicate. -/
def set_termination (m : Gmm) (T : Graph → Bool) : Except String Gmm :=
  let _trial := T m.base
  .ok { m with termination := some T }

/-- `apply_termination()`: `self.termination(self.base)`; calling it with no
stored rule is a `TypeError` (`none`). -/
def apply_termination (m : Gmm) : Option Bool :=
  m.termination.map (fun T => T m.base)

/-- `set_rule(R)`: trial-invoke `R(base, test_graph)` and store the rule. -/
def set_rule (m : Gmm) (R : Graph → Graph → Graph) : Except String Gmm :=
  let _trial := R m.base m.test_graph
  .ok { m with rule := some R }

/-- `apply_rule(new, set_result)`.  The source's coercion block evaluates
`new.to_directed()` / `new.to_undirected()` but never binds the returned
graph (NetworkX's conversions return a copy), so the growth rule is invoked
with `new` exactly as passed; `_discarded` records that dropped value.  With
`set_result` the rule's result replaces `base`. -/
def apply_rule (m : Gmm) (new : Graph) (set_result : Bool) :
    Except String (Gmm × Graph) :=
  let _discarded : Graph :=
    if m.base.is_directed = true ∧ new.is_directed = false then new.to_directed
    else if new.is_directed = true then new.to_undirected
    else new
  match m.rule with
  | none => .error "TypeError"
  | some R =>
    let result := R m.base new
    if set_result then .ok ({ m with base := result }, result)
    else .ok (m, result)

end Gmm

/-- `motif_counts(gmm, tau)`: build the catalog for the base's directedness
and replace each placeholder count with the subgraph-isomorphism count in the
base. -/
def motif_counts (m : Gmm) (tau : ℕ) : List (ℕ × Graph × ℕ) :=
  let base := m.get_base false
  (get_motifs tau base.is_directed).map
    (fun r => (r.1, r.2.1, countSubIso base r.2.1))

/-- The cumulative-mass walk of `draw_structure`: starting from
`mass_sum = probabilities[0]`, while `draw > mass_sum` advance the index and
add the next probability; indexing past the end of the list is an
`IndexError` (`none`). -/
def dsLoop {K : Type} [LinearOrderedField K]
    [DecidableRel ((· < ·) : K → K → Prop)] (u : K) :
    K → ℕ → List K → Option ℕ
  | acc, idx, [] => if u > acc then none else some idx
  | acc, idx, p :: rest2 =>
    if u > acc then dsLoop u (acc + p) (idx + 1) rest2 else some idx

/-- `draw_structure(motif_mass)` with the process-wide `random.uniform()`
draw made an explicit argument `u`: normalize the weights by their sum, then
walk the cumulative normalized mass to pick a record's motif. -/
def draw_structure {α K : Type} [LinearOrderedField K]
    [DecidableRel ((· < ·) : K → K → Prop)]
    (motif_mass : List (ℕ × α × K)) (u : K) : Option α :=
  let mass_sum := (motif_mass.map (·.2.2)).sum
  let probabilities := motif_mass.map (fun r => r.2.2 / mass_sum)
  match probabilities with
  | [] => none
  | p0 :: rest =>
    match dsLoop u p0 0 rest with
    | none => none
    | some motif_index => motif_mass[motif_index]?.map (·.2.1)

/-- `scipy.stats.poisson.pmf(k, mu)`. -/
noncomputable def poissonPmf (k : ℕ) (mu : ℝ) : ℝ :=
  Real.exp (-mu) * mu ^ k / (Nat.factorial k : ℝ)

/-- The index-threading loop of `poisson_mass`: record `i` receives
`pmf(i, estimate)` as its new value. -/
noncomputable def pmAux {α : Type} (estimate : ℝ) :
    ℕ → List (ℕ × α × ℕ) → List (ℕ × α × ℝ)
  | _, [] => []
  | i, (a, b, _) :: t => (a, b, poissonPmf i estimate) :: pmAux estimate (i + 1) t

/-- `poisson_mass(motif_counts)`: `estimate = mean(counts)` and each record's
count is replaced by `pmf(index, estimate)`. -/
noncomputable def poisson_mass {α : Type} (recs : List (ℕ × α × ℕ)) :
    List (ℕ × α × ℝ) :=
  let counts : List ℕ := recs.map (·.2.2)
  pmAux ((counts.sum : ℝ) / (recs.length : ℝ)) 0 recs

/-- Element loop of the ratio branch of `simulate`
(`[(a,b,float(c)/total_counts) for (a,b,c) in motif_dist]`): each division by
a zero total raises `ZeroDivisionError`. -/
def ratioMassAux {α K : Type} [DivisionRing K] (total : ℕ) :
    List (ℕ × α × ℕ) → Except String (List (ℕ × α × K))
  | [] => .ok []
  | (a, b, c) :: t =>
    if total = 0 then .error "ZeroDivisionError"
    else (ratioMassAux total t).map (fun l => (a, b, (c : K) / (total : K)) :: l)

/-- The ratio weighting policy as executed inside `simulate` when
`poisson=False`: `total_counts = sum(counts)` then the per-record division. -/
def ratioMass {α K : Type} [DivisionRing K] (motif_dist : List (ℕ × α × ℕ)) :
    Except String (List (ℕ × α × K)) :=
  ratioMassAux ((motif_dist.map (·.2.2)).sum) motif_dist

/-- One body execution of the `while` loop of `simulate`, with the iteration's
`random.uniform()` draw made the explicit argument `u`: count motifs, weight
them (Poisson PMF when `poisson`, otherwise the count-ratio division), draw a
structure, and apply the growth rule with `set_result=True`.  Any raised
error (`ZeroDivisionError`, `IndexError`, `TypeError`) aborts the run. -/
noncomputable def simulate_step (tau : ℕ) (poisson : Bool) (u : ℝ)
    (m : Gmm) : Except String Gmm :=
  let motif_dist := motif_counts m tau
  let massE : Except String (List (ℕ × Graph × ℝ)) :=
    if poisson then .ok (poisson_mass motif_dist) else ratioMass motif_dist
  match massE with
  | .error e => .error e
  | .ok motif_mass =>
    match draw_structure motif_mass u with
    | none => .error "IndexError"
    | some new_structure =>
      match m.apply_rule new_structure true with
      | .error e => .error e
      | .ok (m2, _) => .ok m2

/-- The `while gmm.apply_termination():` loop of `simulate`, with the uniform
draws supplied as an explicit stream `us`, a fuel bound standing for the
unbounded `while` (fuel exhaustion returns the state reached), and the number
of completed iterations threaded through. -/
noncomputable def simulate_loop (tau : ℕ) (poisson : Bool) :
    ℕ → List ℝ → Gmm → ℕ → Except String (Gmm × ℕ)
  | 0, _, m, iters => .ok (m, iters)
  | fuel + 1, us, m, iters =>
    match m.apply_termination with
    | none => .error "TypeError"
    | some false => .ok (m, iters)
    | some true =>
      match us with
      | [] => .error "RandomExhausted"
      | u :: us2 =>
        match simulate_step tau poisson u m with
        | .error e => .error e
        | .ok m2 => simulate_loop tau poisson fuel us2 m2 (iters + 1)

/-- `simulate(gmm, tau, poisson)`: reject `tau < 2`, then run the loop.  The
returned pair is the final model state together with the number of loop
iterations performed (each iteration is one growth-rule invocation). -/
noncomputable def simulate (m : Gmm) (tau : ℕ) (poisson : Bool)
    (us : List ℝ) (fuel : ℕ) : Except String (Gmm × ℕ) :=
  if tau < 2 then .error "ValueError: tau must be greater than or equal to two"
  else simulate_loop tau poisson fuel us m 0

/-! Concrete instances used by the test suite: the five-node cycle as an
undirected and as a directed base model. -/

def five_cycle : Graph := cycle_graph 5

/-- `gmm.gmm(nx.cycle_graph(5))`: the model `gmm_init` yields. -/
def gmm_five_cycle : Gmm :=
  { base := convert_node_labels_to_integers five_cycle,
    original := convert_node_labels_to_integers five_cycle,
    termination := none, rule := none, test_graph := gmm_test_graph }

/-- `gmm.gmm(nx.cycle_graph(5).to_directed())`. -/
def gmm_five_cycle_directed : Gmm :=
  { base := convert_node_labels_to_integers five_cycle.to_directed,
    original := convert_node_labels_to_integers five_cycle.to_directed,
    termination := none, rule := none, test_graph := gmm_test_graph }

lemma gmm_init_five_cycle : gmm_init five_cycle none none = .ok gmm_five_cycle := rfl

lemma gmm_init_five_cycle_directed :
    gmm_init five_cycle.to_directed none none = .ok gmm_five_cycle_directed := rfl

/-- C7: `all_graphs` yields 1 undirected and 2 directed motifs of order 2 and
2 undirected and 6 directed motifs of order 3, and `get_motifs` over orders
2..3 yields 3 undirected and 8 directed records. -/
theorem motif_catalog_sizes :
    (all_graphs 2 false).length = 1 ∧ (all_graphs 2 true).length = 2 ∧
    (all_graphs 3 false).length = 2 ∧ (all_graphs 3 true).length = 6 ∧
    (get_motifs 3 false).length = 3 ∧ (get_motifs 3 true).length = 8 := by
  decide

/-- C6: on the five-node cycle base with `tau = 3` the motif occurrence
counts sum to 20; on the same cycle converted to a directed structure they
sum to 10. -/
theorem motif_counts_five_cycle_sums :
    ((motif_counts gmm_five_cycle 3).map (·.2.2)).sum = 20 ∧
    ((motif_counts gmm_five_cycle_directed 3).map (·.2.2)).sum = 10 := by
  decide

/-! The coercion step of `apply_rule`.  A growth rule that returns its second
argument exposes exactly the candidate graph the rule was invoked with. -/

/-- A legitimate growth rule (`(Graph, Graph) -> Graph`) returning the
candidate structure it was handed. -/
def snd_rule : Graph → Graph → Graph := fun _ new => new

def triangle_graph : Graph := ⟨false, [0, 1, 2], [(0, 1), (1, 2), (0, 2)]⟩

/-- Undirected five-cycle base with `snd_rule` installed. -/
def gmm_undirected_snd : Gmm :=
  { base := five_cycle, original := five_cycle,
    termination := none, rule := some snd_rule, test_graph := gmm_test_graph }

/-- Directed five-cycle base with `snd_rule` installed. -/
def gmm_directed_snd : Gmm :=
  { base := five_cycle.to_directed, original := five_cycle.to_directed,
    termination := none, rule := some snd_rule, test_graph := gmm_test_graph }

/-- C2: `apply_rule` does not coerce the candidate before invoking the growth
rule — the `to_directed()` / `to_undirected()` results are discarded — so on
an undirected base a directed candidate reaches the rule still directed (the
result graph here is directed, where the claim requires undirected), and on a
directed base an undirected candidate reaches the rule still undirected. -/
theorem apply_rule_candidate_not_coerced :
    (gmm_undirected_snd.apply_rule triangle_graph.to_directed true).map
        (fun p => p.2.is_directed) = .ok true ∧
    (gmm_directed_snd.apply_rule triangle_graph true).map
        (fun p => p.2.is_directed) = .ok false := by
  constructor <;> rfl

/-- A graph with a single edge, below the two-edge minimum for a base. -/
def single_edge_graph : Graph := ⟨false, [0, 1], [(0, 1)]⟩

/-- C10: `set_base` with a graph of fewer than two edges returns normally
(the `ValueError` is constructed but never raised) and leaves the model —
in particular its base graph — unchanged. -/
theorem set_base_few_edges_silent_noop (m : Gmm) (G : Graph)
    (h : G.number_of_edges < 2) : m.set_base G = Except.ok m := by
  unfold Gmm.set_base
  rw [if_neg (by omega)]

theorem set_base_few_edges_silent_noop_witness :
    gmm_five_cycle.set_base single_edge_graph = Except.ok gmm_five_cycle :=
  set_base_few_edges_silent_noop gmm_five_cycle single_edge_graph (by decide)

/-! Behaviour of the cumulative walk in `draw_structure`. -/

lemma dsLoop_stop {K : Type} [LinearOrderedField K]
    [DecidableRel ((· < ·) : K → K → Prop)] {u acc : K} {idx : ℕ}
    {rest : List K} (h : ¬ u > acc) : dsLoop u acc idx rest = some idx := by
  cases rest <;> rw [dsLoop, if_neg h]

lemma dsLoop_step {K : Type} [LinearOrderedField K]
    [DecidableRel ((· < ·) : K → K → Prop)] {u acc : K} {idx : ℕ} {p : K}
    {t : List K} (h : u > acc) :
    dsLoop u acc idx (p :: t) = dsLoop u (acc + p) (idx + 1) t := by
  rw [dsLoop, if_pos h]

/-- Walking a block of zero probabilities with a strictly positive draw
steps over every zero and stops on the following weight-one entry. -/
lemma dsLoop_zeros (u : ℚ) (hu0 : 0 < u) (hu1 : u < 1) :
    ∀ (zs : List ℚ), (∀ z ∈ zs, z = 0) → ∀ (idx : ℕ) (t : List ℚ),
      dsLoop u 0 idx (zs ++ 1 :: t) = some (idx + zs.length + 1) := by
  intro zs
  induction zs with
  | nil =>
    intro _ idx t
    simp only [List.nil_append, List.length_nil, Nat.add_zero]
    rw [dsLoop_step hu0, zero_add, dsLoop_stop (by linarith)]
  | cons z zs ih =>
    intro hz idx t
    have hz0 : z = 0 := hz z (List.mem_cons_self _ _)
    simp only [List.cons_append, List.length_cons]
    rw [dsLoop_step hu0, hz0, add_zero,
      ih (fun w hw => hz w (List.mem_cons_of_mem _ hw)) (idx + 1) t]
    congr 1
    omega

/-- If the draw is at most the remaining cumulative mass, the walk stops at
some index within the list. -/
lemma dsLoop_reaches (u : ℚ) :
    ∀ (rest : List ℚ) (acc : ℚ) (idx : ℕ), u ≤ acc + rest.sum →
      ∃ j, dsLoop u acc idx rest = some j ∧ j ≤ idx + rest.length := by
  intro rest
  induction rest with
  | nil =>
    intro acc idx h
    simp only [List.sum_nil, add_zero] at h
    exact ⟨idx, dsLoop_stop (by linarith), by simp⟩
  | cons p t ih =>
    intro acc idx h
    by_cases hgt : u > acc
    · obtain ⟨j, hj, hle⟩ := ih (acc + p) (idx + 1) (by simp at h ⊢; linarith)
      exact ⟨j, by rw [dsLoop_step hgt]; exact hj, by simp; omega⟩
    · exact ⟨idx, dsLoop_stop hgt, by simp⟩

lemma list_map_div_sum {α : Type} (l : List α) (f : α → ℚ) (c : ℚ) :
    (l.map (fun x => f x / c)).sum = (l.map f).sum / c := by
  induction l with
  | nil => simp
  | cons a t ih => simp [ih, div_add_div_same]

/-- C3 (amended): with one record of weight exactly 1 and all others 0, a
strictly positive draw `u < 1` always selects the weight-one record's item,
wherever it sits in the sequence. -/
theorem draw_structure_unit_weight_selected {α : Type}
    (pre post : List (ℕ × α × ℚ)) (i : ℕ) (x : α) (u : ℚ)
    (hpre : ∀ r ∈ pre, r.2.2 = 0) (hpost : ∀ r ∈ post, r.2.2 = 0)
    (hu0 : 0 < u) (hu1 : u < 1) :
    draw_structure (pre ++ (i, x, (1 : ℚ)) :: post) u = some x := by
  have hsum : ((pre ++ (i, x, (1 : ℚ)) :: post).map (·.2.2)).sum = 1 := by
    rw [List.map_append, List.sum_append, List.map_cons, List.sum_cons]
    rw [List.sum_eq_zero (fun y hy => by
          obtain ⟨r, hr, rfl⟩ := List.mem_map.1 hy; exact hpre r hr),
        List.sum_eq_zero (fun y hy => by
          obtain ⟨r, hr, rfl⟩ := List.mem_map.1 hy; exact hpost r hr)]
    ring
  unfold draw_structure
  rw [hsum]
  simp only [div_one]
  cases pre with
  | nil =>
    simp only [List.nil_append, List.map_cons]
    rw [dsLoop_stop (by simp; linarith)]
    simp
  | cons q pt =>
    have hq : q.2.2 = 0 := hpre q (List.mem_cons_self _ _)
    simp only [List.cons_append, List.map_cons, List.map_append, hq]
    rw [dsLoop_zeros u hu0 hu1 (pt.map (·.2.2))
      (fun z hz => by
        obtain ⟨r, hr, rfl⟩ := List.mem_map.1 hz
        exact hpre r (List.mem_cons_of_mem _ hr)) 0 (post.map (·.2.2))]
    simp only [List.length_map, Nat.zero_add]
    rw [List.getElem?_cons_succ, List.getElem?_append_right le_rfl]
    simp

/-- C3 (counterexample): with records `[(0, item 10, weight 0.0),
(1, item 20, weight 1.0), (2, item 30, weight 0.0)]` and the admissible draw
value `u = 0` (the uniform draw is over `[0, 1)`), the walk stops at the very
first record — `draw_structure` does not return the weight-one record's
item. -/
theorem draw_structure_unit_weight_zero_draw_cex :
    draw_structure [((0 : ℕ), (10 : ℕ), (0 : ℚ)), (1, 20, 1), (2, 30, 0)]
      (0 : ℚ) ≠ some 20 := by
  norm_num [draw_structure, dsLoop]

theorem draw_structure_unit_weight_selected_witness :
    draw_structure [((0 : ℕ), (10 : ℕ), (0 : ℚ)), (1, 20, 1), (2, 30, 0)]
      (1 / 2 : ℚ) = some 20 :=
  draw_structure_unit_weight_selected [((0 : ℕ), (10 : ℕ), (0 : ℚ))]
    [((2 : ℕ), (30 : ℕ), (0 : ℚ))] 1 20 (1 / 2)
    (by decide) (by decide) (by norm_num) (by norm_num)

/-- Under exact rational arithmetic (where the normalized weights sum to
exactly 1), a draw `u < 1` makes `draw_structure` return the item of some
record of the sequence.  The shortfall scenario — the cumulative sum staying
below `u` — needs rounding error and is treated separately below: the code
has no fallback for it. -/
theorem draw_structure_returns_member {α : Type}
    (mass : List (ℕ × α × ℚ)) (u : ℚ) (hne : mass ≠ [])
    (hpos : 0 < (mass.map (·.2.2)).sum) (hu0 : 0 ≤ u) (hu1 : u < 1) :
    ∃ r ∈ mass, draw_structure mass u = some r.2.1 := by
  obtain ⟨r0, mt, rfl⟩ : ∃ r0 mt, mass = r0 :: mt := by
    cases mass with
    | nil => exact absurd rfl hne
    | cons a t => exact ⟨a, t, rfl⟩
  have hsne : (((r0 :: mt).map (·.2.2)).sum : ℚ) ≠ 0 := ne_of_gt hpos
  have hsum1 :
      r0.2.2 / ((r0 :: mt).map (·.2.2)).sum
        + (mt.map (fun r => r.2.2 / ((r0 :: mt).map (·.2.2)).sum)).sum = 1 := by
    have h1 : ((r0 :: mt).map
        (fun r => r.2.2 / ((r0 :: mt).map (·.2.2)).sum)).sum = 1 := by
      rw [list_map_div_sum (r0 :: mt) (fun x => x.2.2)
        (((r0 :: mt).map (·.2.2)).sum)]
      exact div_self hsne
    simpa [List.map_cons, List.sum_cons] using h1
  obtain ⟨j, hj, hjle⟩ :=
    dsLoop_reaches u (mt.map (fun r => r.2.2 / ((r0 :: mt).map (·.2.2)).sum))
      (r0.2.2 / ((r0 :: mt).map (·.2.2)).sum) 0 (by rw [hsum1]; linarith)
  have hjlt : j < (r0 :: mt).length := by
    simp only [List.length_map] at hjle
    simp only [List.length_cons]
    omega
  refine ⟨(r0 :: mt)[j], List.getElem_mem hjlt, ?_⟩
  simp only [draw_structure, List.map_cons, List.sum_cons]
  simp only [List.map_cons, List.sum_cons] at hj
  rw [hj]
  simp [List.getElem?_eq_getElem hjlt]

theorem draw_structure_returns_member_witness :
    ∃ r ∈ [((0 : ℕ), (10 : ℕ), (1 / 2 : ℚ)), (1, 20, 1 / 2)],
      draw_structure [((0 : ℕ), (10 : ℕ), (1 / 2 : ℚ)), (1, 20, 1 / 2)]
        (3 / 4 : ℚ) = some r.2.1 :=
  draw_structure_returns_member
    [((0 : ℕ), (10 : ℕ), (1 / 2 : ℚ)), (1, 20, 1 / 2)] (3 / 4)
    (by decide) (by norm_num) (by norm_num) (by norm_num)

/-- When the cumulative sum stays below the draw for the whole list, the walk
increments the index past the end and indexes out of bounds (`none`,
modelling the `IndexError` of `probabilities[motif_index]`). -/
lemma dsLoop_overshoot (u : ℚ) :
    ∀ (rest : List ℚ) (acc : ℚ) (idx : ℕ), (∀ p ∈ rest, 0 ≤ p) →
      acc + rest.sum < u → dsLoop u acc idx rest = none := by
  intro rest
  induction rest with
  | nil =>
    intro acc idx _ h
    simp only [List.sum_nil, add_zero] at h
    rw [dsLoop, if_pos h]
  | cons p t ih =>
    intro acc idx hnn h
    have hts : 0 ≤ t.sum :=
      List.sum_nonneg (fun x hx => hnn x (List.mem_cons_of_mem _ hx))
    have hp : 0 ≤ p := hnn p (List.mem_cons_self _ _)
    simp only [List.sum_cons] at h
    have hacc : u > acc := by linarith
    rw [dsLoop_step hacc]
    exact ih (acc + p) (idx + 1)
      (fun x hx => hnn x (List.mem_cons_of_mem _ hx)) (by linarith)

/-- C5 (refutation): `draw_structure` has no defensive last-item fallback.
Whenever the running cumulative sum of normalized probabilities never reaches
the draw `u` — the exact-arithmetic rendering of the claim's rounding
scenario, realized here by a draw beyond the total normalized mass — the walk
of `algorithms.py` runs past the end of the probability list and raises
`IndexError` (`none`) instead of returning the last item of the sequence. -/
theorem draw_structure_no_last_item_fallback {α : Type}
    (mass : List (ℕ × α × ℚ)) (u : ℚ)
    (hnn : ∀ r ∈ mass, 0 ≤ r.2.2) (hpos : 0 < (mass.map (·.2.2)).sum)
    (hover : (mass.map (fun r => r.2.2 / (mass.map (·.2.2)).sum)).sum < u) :
    draw_structure mass u = none := by
  cases mass with
  | nil => rfl
  | cons r0 mt =>
    simp only [List.map_cons, List.sum_cons] at hpos hover
    simp only [draw_structure, List.map_cons, List.sum_cons]
    have hnone : dsLoop u
        (r0.2.2 / (r0.2.2 + (mt.map (·.2.2)).sum)) 0
        (mt.map (fun r => r.2.2 / (r0.2.2 + (mt.map (·.2.2)).sum))) = none := by
      apply dsLoop_overshoot
      · intro p hp
        obtain ⟨r, hr, rfl⟩ := List.mem_map.1 hp
        exact div_nonneg (hnn r (List.mem_cons_of_mem _ hr)) (le_of_lt hpos)
      · exact hover
    rw [hnone]

theorem draw_structure_no_last_item_fallback_witness :
    draw_structure [((0 : ℕ), (10 : ℕ), (1 / 2 : ℚ)), (1, 20, 1 / 2)]
      (3 / 2 : ℚ) = none :=
  draw_structure_no_last_item_fallback
    [((0 : ℕ), (10 : ℕ), (1 / 2 : ℚ)), (1, 20, 1 / 2)] (3 / 2)
    (by norm_num) (by norm_num) (by norm_num)

/-! The Poisson weighting policy. -/

lemma poissonPmf_zero_mu (k : ℕ) :
    poissonPmf k 0 = if k = 0 then (1 : ℝ) else 0 := by
  cases k with
  | zero => simp [poissonPmf]
  | succ n => simp [poissonPmf]

lemma poissonPmf_pos (k : ℕ) (mu : ℝ) (h : 0 < mu) : 0 < poissonPmf k mu := by
  unfold poissonPmf
  exact div_pos (mul_pos (Real.exp_pos _) (pow_pos h k))
    (by exact_mod_cast Nat.factorial_pos k)

/-- The value column produced by the index-threading loop: position `j`
(starting from offset `i`) holds `pmf(i + j, estimate)`. -/
lemma pmAux_map_value {α : Type} (e : ℝ) :
    ∀ (recs : List (ℕ × α × ℕ)) (i : ℕ),
      (pmAux e i recs).map (·.2.2)
        = (List.range recs.length).map (fun j => poissonPmf (i + j) e) := by
  intro recs
  induction recs with
  | nil => intro i; simp [pmAux]
  | cons r t ih =>
    intro i
    obtain ⟨a, b, c⟩ := r
    simp only [pmAux, List.map_cons, List.length_cons, List.range_succ_eq_map,
      List.map_map, ih (i + 1)]
    congr 1
    apply List.map_congr_left
    intro j _
    simp only [Function.comp_apply]
    congr 1
    omega

lemma pmAux_mem {α : Type} (e : ℝ) :
    ∀ (recs : List (ℕ × α × ℕ)) (i : ℕ) (p : ℕ × α × ℝ),
      p ∈ pmAux e i recs → ∃ j, p.2.2 = poissonPmf j e := by
  intro recs
  induction recs with
  | nil => intro i p hp; simp [pmAux] at hp
  | cons r t ih =>
    intro i p hp
    obtain ⟨a, b, c⟩ := r
    simp only [pmAux, List.mem_cons] at hp
    rcases hp with rfl | hp
    · exact ⟨i, rfl⟩
    · exact ih (i + 1) p hp

/-- C8: whenever at least one occurrence count is non-zero (so the mean
`lambda` is strictly positive), every record of the Poisson-weighted sequence
carries a strictly positive weight. -/
theorem poisson_mass_positive {α : Type} (recs : List (ℕ × α × ℕ))
    (h : (recs.map (·.2.2)).sum ≠ 0) :
    ∀ p ∈ poisson_mass recs, 0 < p.2.2 := by
  have hne : recs ≠ [] := by rintro rfl; simp at h
  have hmu : (0 : ℝ) < (((recs.map (·.2.2)).sum : ℕ) : ℝ) / (recs.length : ℝ) := by
    apply div_pos
    · exact_mod_cast Nat.pos_of_ne_zero h
    · exact_mod_cast List.length_pos.2 hne
  intro p hp
  obtain ⟨j, hj⟩ := pmAux_mem _ recs 0 p hp
  rw [hj]
  exact poissonPmf_pos j _ hmu

theorem poisson_mass_positive_witness :
    0 < ((poisson_mass [((0 : ℕ), (0 : ℕ), (1 : ℕ)), (1, 0, 0)]).head
          (by simp [poisson_mass, pmAux])).2.2 :=
  poisson_mass_positive [((0 : ℕ), (0 : ℕ), (1 : ℕ)), (1, 0, 0)] (by decide) _
    (List.head_mem _)

/-- C4 (counterexample): with two records whose counts are both zero the
Poisson policy does not assign the uniform weight `1/2` to each record — the
degenerate `lambda = 0` mass gives the rank-0 record weight 1 and the other
weight 0. -/
theorem poisson_mass_zero_counts_not_uniform_cex :
    (poisson_mass [((0 : ℕ), (0 : ℕ), (0 : ℕ)), (1, 0, 0)]).map (·.2.2)
      ≠ [1 / 2, 1 / 2] := by
  simp only [poisson_mass, pmAux, List.map_cons, List.map_nil]
  norm_num [poissonPmf]

/-- C4 (amended): when every occurrence count is zero, `lambda = mean = 0`
and the Poisson policy produces the degenerate point mass at rank 0 — weight
1 for the first record and weight 0 for every later record — rather than the
uniform distribution. -/
theorem poisson_mass_zero_counts_point_mass {α : Type}
    (recs : List (ℕ × α × ℕ)) (h0 : ∀ r ∈ recs, r.2.2 = 0) :
    (poisson_mass recs).map (·.2.2)
      = (List.range recs.length).map (fun j => if j = 0 then (1 : ℝ) else 0) := by
  have hsum : (recs.map (·.2.2)).sum = 0 :=
    List.sum_eq_zero (fun y hy => by
      obtain ⟨r, hr, rfl⟩ := List.mem_map.1 hy; exact h0 r hr)
  unfold poisson_mass
  dsimp only
  rw [hsum, Nat.cast_zero, zero_div, pmAux_map_value]
  apply List.map_congr_left
  intro j _
  rw [Nat.zero_add, poissonPmf_zero_mu]

theorem poisson_mass_zero_counts_point_mass_witness :
    (poisson_mass [((0 : ℕ), (0 : ℕ), (0 : ℕ)), (1, 0, 0)]).map (·.2.2)
      = (List.range 2).map (fun j => if j = 0 then (1 : ℝ) else 0) :=
  poisson_mass_zero_counts_point_mass [((0 : ℕ), (0 : ℕ), (0 : ℕ)), (1, 0, 0)]
    (by decide)

/-! The ratio weighting policy and the configuration methods. -/

lemma ratioMassAux_ok {α K : Type} [DivisionRing K] (total : ℕ) (h : total ≠ 0) :
    ∀ dist : List (ℕ × α × ℕ),
      ∃ l, ratioMassAux total dist = Except.ok (ε := String) (l : List (ℕ × α × K)) := by
  intro dist
  induction dist with
  | nil => exact ⟨[], rfl⟩
  | cons r t ih =>
    obtain ⟨a, b, c⟩ := r
    obtain ⟨l, hl⟩ := ih
    refine ⟨(a, b, (c : K) / (total : K)) :: l, ?_⟩
    rw [ratioMassAux, if_neg h, hl]
    rfl

/-- C9: on a non-empty record sequence, ratio weight assignment fails (the
`ZeroDivisionError` of `float(c)/total_counts`) exactly when the total
occurrence count is zero; and installing a termination predicate or a growth
rule never produces that failure — `set_termination` and `set_rule` return
normally, merely storing the rule. -/
theorem ratio_weighting_error_iff_zero_total {α : Type}
    (dist : List (ℕ × α × ℕ)) (hne : dist ≠ []) (m : Gmm)
    (T : Graph → Bool) (R : Graph → Graph → Graph) :
    (((ratioMass dist : Except String (List (ℕ × α × ℝ)))
        = Except.error "ZeroDivisionError") ↔ (dist.map (·.2.2)).sum = 0)
    ∧ m.set_termination T = Except.ok { m with termination := some T }
    ∧ m.set_rule R = Except.ok { m with rule := some R } := by
  refine ⟨?_, rfl, rfl⟩
  by_cases h : (dist.map (·.2.2)).sum = 0
  · simp only [h, iff_true]
    obtain ⟨r, t, rfl⟩ : ∃ r t, dist = r :: t := by
      cases dist with
      | nil => exact absurd rfl hne
      | cons a t => exact ⟨a, t, rfl⟩
    obtain ⟨a, b, c⟩ := r
    rw [ratioMass, h, ratioMassAux, if_pos rfl]
  · obtain ⟨l, hl⟩ := @ratioMassAux_ok α ℝ _ ((dist.map (·.2.2)).sum) h dist
    rw [ratioMass, hl]
    simp [h]

theorem ratio_weighting_error_iff_zero_total_witness :
    (((ratioMass [((0 : ℕ), (0 : ℕ), (0 : ℕ))] : Except String (List (ℕ × ℕ × ℝ)))
        = Except.error "ZeroDivisionError") ↔
      (([((0 : ℕ), (0 : ℕ), (0 : ℕ))].map (·.2.2)).sum = 0))
    ∧ gmm_five_cycle.set_termination (fun _ => true)
        = Except.ok { gmm_five_cycle with termination := some (fun _ => true) }
    ∧ gmm_five_cycle.set_rule snd_rule
        = Except.ok { gmm_five_cycle with rule := some snd_rule } :=
  ratio_weighting_error_iff_zero_total [((0 : ℕ), (0 : ℕ), (0 : ℕ))]
    (by decide) gmm_five_cycle (fun _ => true) snd_rule

/-! The simulation loop. -/

/-- Manual unfolding of one `while`-loop test of `simulate_loop`. -/
lemma simulate_loop_succ (tau : ℕ) (poisson : Bool) (fuel : ℕ) (us : List ℝ)
    (m : Gmm) (iters : ℕ) :
    simulate_loop tau poisson (fuel + 1) us m iters =
      match m.apply_termination with
      | none => .error "TypeError"
      | some false => .ok (m, iters)
      | some true =>
        match us with
        | [] => .error "RandomExhausted"
        | u :: us2 =>
          match simulate_step tau poisson u m with
          | .error e => .error e
          | .ok m2 => simulate_loop tau poisson fuel us2 m2 (iters + 1) := rfl

/-- The iteration counter threaded through `simulate_loop` never decreases:
a normal return carries at least as many completed iterations as it started
with. -/
lemma simulate_loop_iters_le (tau : ℕ) (poisson : Bool) :
    ∀ (fuel : ℕ) (us : List ℝ) (m : Gmm) (iters : ℕ) (m2 : Gmm) (k : ℕ),
      simulate_loop tau poisson fuel us m iters = Except.ok (m2, k) →
      iters ≤ k := by
  intro fuel
  induction fuel with
  | zero =>
    intro us m iters m2 k h
    simp only [simulate_loop, Except.ok.injEq, Prod.mk.injEq] at h
    omega
  | succ f ih =>
    intro us m iters m2 k h
    rw [simulate_loop_succ] at h
    cases hterm : m.apply_termination with
    | none => rw [hterm] at h; simp at h
    | some b =>
      rw [hterm] at h
      cases b with
      | false =>
        simp only [Except.ok.injEq, Prod.mk.injEq] at h
        omega
      | true =>
        cases us with
        | nil => simp at h
        | cons u us2 =>
          dsimp only at h
          cases hstep : simulate_step tau poisson u m with
          | error e => rw [hstep] at h; simp at h
          | ok m3 =>
            rw [hstep] at h
            dsimp only at h
            have := ih us2 m3 (iters + 1) m2 k h
            omega

/-- A growth rule returning its first argument unchanged — used only to give
the witness model a stored rule. -/
def fst_rule : Graph → Graph → Graph := fun base _ => base

/-- A termination predicate that is true on every graph. -/
def always_true_termination : Graph → Bool := fun _ => true

/-- Model whose termination predicate is immediately true on its base. -/
def gmm_terminated : Gmm :=
  { base := five_cycle, original := five_cycle,
    termination := some always_true_termination, rule := some fst_rule,
    test_graph := gmm_test_graph }

/-- C1 (refutation): `simulate` loops `while gmm.apply_termination():`, i.e.
while the termination predicate is TRUE.  Hence on a model whose predicate is
true on the current base the loop body — including the growth rule — runs at
least once: no normal return of `simulate` can report zero completed
iterations.  (The claim, like the spec, requires exactly zero iterations in
this situation.) -/
theorem simulate_true_termination_iterates (m : Gmm) (tau : ℕ) (poisson : Bool)
    (us : List ℝ) (fuel : ℕ) (hterm : m.apply_termination = some true)
    (htau : ¬ tau < 2) (hfuel : 1 ≤ fuel) :
    ∀ m2, simulate m tau poisson us fuel ≠ Except.ok (m2, 0) := by
  intro m2 h
  rw [simulate, if_neg htau] at h
  obtain ⟨f, rfl⟩ : ∃ f, fuel = f + 1 := ⟨fuel - 1, by omega⟩
  rw [simulate_loop_succ, hterm] at h
  cases us with
  | nil => simp at h
  | cons u us2 =>
    dsimp only at h
    cases hstep : simulate_step tau poisson u m with
    | error e => rw [hstep] at h; simp at h
    | ok m3 =>
      rw [hstep] at h
      dsimp only at h
      have := simulate_loop_iters_le tau poisson f us2 m3 1 m2 0 h
      omega

theorem simulate_true_termination_iterates_witness :
    simulate gmm_terminated 3 false [] 1 ≠ Except.ok (gmm_terminated, 0) :=
  simulate_true_termination_iterates gmm_terminated 3 false [] 1 rfl
    (by decide) (by decide) gmm_terminated
